import Mathlib

/-!
Verification of the mp4ff wvtt box family (ISO/IEC 14496-30 cue boxes)
and the CENC sample decryption example, via a shallow embedding.

Bytes are modelled as `List Nat` (each entry a byte value); machine
integers are `Nat` with explicit `% 2 ^ w` where overflow matters;
Go runtime panics (slice out of range) are modelled as explicit error
results; fallible code returns `Except`.

The box framework pieces that are not among the provided sources
(box header codec, box dispatcher, `DecodeContainerChildren`,
`EncodeHeader`, `containerSize`) are modelled from the spec, and are
marked as such in their doc comments.  Everything else is translated
from the Go sources.
-/

namespace Mp4ff

/-- Big-endian value of a byte list (binary.BigEndian in the source);
entries are reduced mod 256 as bytes. -/
def beVal : List Nat → Nat
  | [] => 0
  | b :: bs => b % 256 * 256 ^ bs.length + beVal bs

/-- The n-byte big-endian representation of v (truncated to v mod 256 ^ n). -/
def beBytes : Nat → Nat → List Nat
  | 0, _ => []
  | n + 1, v => v / 256 ^ n % 256 :: beBytes n v

/-! ## The wvtt box family data model

The Go structs `WvttBox` and `VttcBox` keep both an ordered `Children`
list and named fields (`VttC`, `Vlab`, ..., `Payl`) that `AddChild`
assigns; every reachable value has the named fields determined by the
ordered list (the last child of the matching type), so the embedding
stores only the ordered list and treats the named fields as derived
lookups, as the spec's design notes prescribe. -/

/-- The wvtt box family, plus an opaque box for unregistered types
(the spec's raw pass-through box). Payload text/blob fields are byte
lists. -/
inductive Box where
  | wvtt (dataReferenceIndex : Nat) (children : List Box)
  | vttC (config : List Nat)
  | vlab (sourceLabel : List Nat)
  | vtte
  | vttc (children : List Box)
  | vsid (sourceID : Nat)
  | iden (cueID : List Nat)
  | ctim (cueCurrentTime : List Nat)
  | sttg (settings : List Nat)
  | payl (cueText : List Nat)
  | vtta (cueAdditionalText : List Nat)
  | unkn (typ : List Nat) (payload : List Nat)

/-- Size of the 8-byte box header (4-byte size, 4-byte type). -/
def boxHeaderSize : Nat := 8

/-- Constant from the source: sample-entry header plus the 6 reserved
bytes and the 2-byte DataReferenceIndex that precede wvtt children. -/
def nrWvttBytesBeforeChildren : Nat := 16

mutual
/-- Size per the source Size() methods: header plus payload for leaves,
fixed pre-children bytes plus the recomputed child sizes for
containers. -/
def sizeB : Box → Nat
  | .wvtt _ cs => nrWvttBytesBeforeChildren + sizeL cs
  | .vttC s => boxHeaderSize + s.length
  | .vlab s => boxHeaderSize + s.length
  | .vtte => boxHeaderSize
  | .vttc cs => boxHeaderSize + sizeL cs
  | .vsid _ => boxHeaderSize + 4
  | .iden s => boxHeaderSize + s.length
  | .ctim s => boxHeaderSize + s.length
  | .sttg s => boxHeaderSize + s.length
  | .payl s => boxHeaderSize + s.length
  | .vtta s => boxHeaderSize + s.length
  | .unkn _ p => boxHeaderSize + p.length
/-- Sum of the sizes of a child list. -/
def sizeL : List Box → Nat
  | [] => 0
  | c :: cs => sizeB c + sizeL cs
end

/-- Modelled from the spec: containerSize is the header size plus the
sum of each child's current size, recomputed on demand. -/
def containerSize (children : List Box) : Nat :=
  boxHeaderSize + sizeL children

/-- Four-character code of a box, as its 4 ASCII byte values. -/
def typ4 : Box → List Nat
  | .wvtt .. => [119, 118, 116, 116]
  | .vttC _ => [118, 116, 116, 67]
  | .vlab _ => [118, 108, 97, 98]
  | .vtte => [118, 116, 116, 101]
  | .vttc _ => [118, 116, 116, 99]
  | .vsid _ => [118, 115, 105, 100]
  | .iden _ => [105, 100, 101, 110]
  | .ctim _ => [99, 116, 105, 109]
  | .sttg _ => [115, 116, 116, 103]
  | .payl _ => [112, 97, 121, 108]
  | .vtta _ => [118, 116, 116, 97]
  | .unkn t _ => t

/-- The four bytes of the wvtt type code. -/
def wvttT : List Nat := [119, 118, 116, 116]

/-- The four bytes of the vttc type code. -/
def vttcT : List Nat := [118, 116, 116, 99]

/-- The four bytes of the vtte type code. -/
def vtteT : List Nat := [118, 116, 116, 101]

/-- The four bytes of the vsid type code. -/
def vsidT : List Nat := [118, 115, 105, 100]

/-- Modelled from the spec: EncodeHeader emits the minimal header form —
a 32-bit size when it fits, else size 1 followed by the 64-bit actual
size; the type code is written as its 4 raw bytes. -/
def encodeHeader (t : List Nat) (size : Nat) : List Nat :=
  if size < 2 ^ 32 then beBytes 4 size ++ t
  else beBytes 4 1 ++ t ++ beBytes 8 size

mutual
/-- Encode per the source Encode() methods: header, then the
box-specific payload, then (for containers) each child in order. -/
def encodeBox : Box → List Nat
  | .wvtt dri cs =>
      encodeHeader [119, 118, 116, 116] (sizeB (.wvtt dri cs)) ++
        (List.replicate 6 0 ++ beBytes 2 dri) ++ encodeL cs
  | .vttC s => encodeHeader [118, 116, 116, 67] (sizeB (.vttC s)) ++ s
  | .vlab s => encodeHeader [118, 108, 97, 98] (sizeB (.vlab s)) ++ s
  | .vtte => encodeHeader [118, 116, 116, 101] (sizeB .vtte)
  | .vttc cs =>
      encodeHeader [118, 116, 116, 99] (sizeB (.vttc cs)) ++ encodeL cs
  | .vsid v => encodeHeader [118, 115, 105, 100] (sizeB (.vsid v)) ++ beBytes 4 v
  | .iden s => encodeHeader [105, 100, 101, 110] (sizeB (.iden s)) ++ s
  | .ctim s => encodeHeader [99, 116, 105, 109] (sizeB (.ctim s)) ++ s
  | .sttg s => encodeHeader [115, 116, 116, 103] (sizeB (.sttg s)) ++ s
  | .payl s => encodeHeader [112, 97, 121, 108] (sizeB (.payl s)) ++ s
  | .vtta s => encodeHeader [118, 116, 116, 97] (sizeB (.vtta s)) ++ s
  | .unkn t p => encodeHeader t (sizeB (.unkn t p)) ++ p
/-- Encode a child list in order, with no padding between children. -/
def encodeL : List Box → List Nat
  | [] => []
  | c :: cs => encodeBox c ++ encodeL cs
end

/-- Decode errors.  eof is the distinct clean end-of-stream signal;
badSizeWvtt is the source's Bad size in wvtt error; outOfRange models a
Go slice-out-of-range panic; fuelOut never occurs with sufficient
fuel. -/
inductive DecErr where
  | eof
  | fuelOut
  | truncatedHeader
  | truncatedInput
  | badHeaderSize
  | badSizeWvtt
  | malformedContainer
  | outOfRange
  deriving DecidableEq

/-- A parsed box header: total declared box size, 4-byte type code, and
the number of header bytes consumed (8, or 16 with an extended size). -/
structure BoxHeader where
  size : Nat
  typ : List Nat
  hdrLen : Nat

/-- Modelled from the spec: the box header codec reads a 4-byte size and
4-byte type; size 1 means a 64-bit extended size follows; size 0 means
the box extends to the end of the stream; an empty stream is the
distinct end-of-stream signal. -/
def decodeHeader (bytes : List Nat) : Except DecErr BoxHeader :=
  if bytes.length = 0 then .error .eof
  else if bytes.length < 8 then .error .truncatedHeader
  else
    let size32 := beVal (bytes.take 4)
    let t := (bytes.drop 4).take 4
    if size32 = 0 then .ok ⟨bytes.length, t, 8⟩
    else if size32 = 1 then
      if bytes.length < 16 then .error .truncatedHeader
      else
        let size64 := beVal ((bytes.drop 8).take 8)
        if size64 < 16 then .error .badHeaderSize
        else .ok ⟨size64, t, 16⟩
    else if size32 < 8 then .error .badHeaderSize
    else .ok ⟨size32, t, 8⟩

/-- DecodeVttC: the whole remaining payload is the config text. -/
def decodeVttC (data : List Nat) : Except DecErr Box := .ok (.vttC data)

/-- DecodeVlab: the whole remaining payload is the source label. -/
def decodeVlab (data : List Nat) : Except DecErr Box := .ok (.vlab data)

/-- DecodeVtte: the payload, if any, is ignored. -/
def decodeVtte (_data : List Nat) : Except DecErr Box := .ok .vtte

/-- DecodeVsid: reads data[0:4] as a big-endian uint32 with no bounds
check; a payload shorter than 4 bytes is a Go slice-out-of-range panic,
modelled as the outOfRange error. -/
def decodeVsid (data : List Nat) : Except DecErr Box :=
  if 4 ≤ data.length then .ok (.vsid (beVal (data.take 4)))
  else .error .outOfRange

/-- DecodeIden: the whole remaining payload is the cue ID. -/
def decodeIden (data : List Nat) : Except DecErr Box := .ok (.iden data)

/-- DecodeCtim: the whole remaining payload is the cue current time. -/
def decodeCtim (data : List Nat) : Except DecErr Box := .ok (.ctim data)

/-- DecodeSttg: the whole remaining payload is the settings text. -/
def decodeSttg (data : List Nat) : Except DecErr Box := .ok (.sttg data)

/-- DecodePayl: the whole remaining payload is the cue text. -/
def decodePayl (data : List Nat) : Except DecErr Box := .ok (.payl data)

/-- DecodeVtta: the whole remaining payload is the additional text. -/
def decodeVtta (data : List Nat) : Except DecErr Box := .ok (.vtta data)

/-- Leaf dispatch by type code; unregistered types decode to the opaque
raw box that preserves the payload bytes (modelled from the spec). -/
def decodeLeaf (t : List Nat) (payload : List Nat) : Except DecErr Box :=
  if t = [118, 116, 116, 67] then decodeVttC payload
  else if t = [118, 108, 97, 98] then decodeVlab payload
  else if t = [118, 116, 116, 101] then decodeVtte payload
  else if t = [118, 115, 105, 100] then decodeVsid payload
  else if t = [105, 100, 101, 110] then decodeIden payload
  else if t = [99, 116, 105, 109] then decodeCtim payload
  else if t = [115, 116, 116, 103] then decodeSttg payload
  else if t = [112, 97, 121, 108] then decodePayl payload
  else if t = [118, 116, 116, 97] then decodeVtta payload
  else .ok (.unkn t payload)

/-- Modelled from the spec: one step of decode_box, parametric in the
lower-fuel decoder and child loops.  It reads a header, bounds the
payload to exactly the declared length (fewer available bytes than
declared is TruncatedInput), and dispatches on the type code.  The wvtt
branch is DecodeWvtt from the source: skip 6 reserved bytes, read the
16-bit DataReferenceIndex, then loop decoding children; the vttc branch
is DecodeVttc from the source, delegating to the container children
loop. -/
def decodeBoxStep
    (wvPrev ccPrev : Nat → Nat → List Nat → List Box → Except DecErr (List Box))
    (pos : Nat) (bytes : List Nat) : Except DecErr (Box × List Nat) :=
  match decodeHeader bytes with
  | .error e => .error e
  | .ok hdr =>
    let body := bytes.drop hdr.hdrLen
    if body.length < hdr.size - hdr.hdrLen then .error .truncatedInput
    else
      let payload := body.take (hdr.size - hdr.hdrLen)
      let rest := body.drop (hdr.size - hdr.hdrLen)
      if hdr.typ = [119, 118, 116, 116] then
        if payload.length < 8 then .error .outOfRange
        else
          let dri := beVal ((payload.drop 6).take 2)
          match wvPrev (pos + nrWvttBytesBeforeChildren)
              (pos + hdr.size) (payload.drop 8) [] with
          | .error e => .error e
          | .ok cs => .ok (Box.wvtt dri cs, rest)
      else if hdr.typ = [118, 116, 116, 99] then
        match ccPrev (pos + boxHeaderSize) (pos + hdr.size) payload [] with
        | .error e => .error e
        | .ok cs => .ok (Box.vttc cs, rest)
      else
        match decodeLeaf hdr.typ payload with
        | .error e => .error e
        | .ok box => .ok (box, rest)

/-- One iteration of the child loop of DecodeWvtt from the source:
decode a child, add it, advance pos by the child's computed Size(); a
clean EOF breaks the loop; pos equal to the container end breaks the
loop; pos beyond the end is the hard Bad size in wvtt error. -/
def wvttChildrenStep
    (dbPrev : Nat → List Nat → Except DecErr (Box × List Nat))
    (wvPrev : Nat → Nat → List Nat → List Box → Except DecErr (List Box))
    (pos endPos : Nat) (bytes : List Nat) (acc : List Box) :
    Except DecErr (List Box) :=
  match dbPrev pos bytes with
  | .error .eof => .ok acc
  | .error e => .error e
  | .ok (box, rest) =>
    let pos2 := pos + sizeB box
    let acc2 := acc ++ [box]
    if pos2 = endPos then .ok acc2
    else if endPos < pos2 then .error .badSizeWvtt
    else wvPrev pos2 endPos rest acc2

/-- Modelled from the spec: one iteration of DecodeContainerChildren,
which repeatedly invokes the dispatcher, advancing by each child's
size; it stops when the running offset equals the end offset; an offset
beyond the end, or end of stream before the end offset, is
MalformedContainer. -/
def containerChildrenStep
    (dbPrev : Nat → List Nat → Except DecErr (Box × List Nat))
    (ccPrev : Nat → Nat → List Nat → List Box → Except DecErr (List Box))
    (pos endPos : Nat) (bytes : List Nat) (acc : List Box) :
    Except DecErr (List Box) :=
  if pos = endPos then .ok acc
  else
    match dbPrev pos bytes with
    | .error .eof => .error .malformedContainer
    | .error e => .error e
    | .ok (box, rest) =>
      let pos2 := pos + sizeB box
      if endPos < pos2 then .error .malformedContainer
      else ccPrev pos2 endPos rest (acc ++ [box])

/-- The fuel-indexed family of the box decoder and the two child loops,
tied together by structural recursion on the fuel (which only bounds
recursion depth; it never changes a defined result). -/
def decodeTriple : Nat →
    (Nat → List Nat → Except DecErr (Box × List Nat)) ×
    (Nat → Nat → List Nat → List Box → Except DecErr (List Box)) ×
    (Nat → Nat → List Nat → List Box → Except DecErr (List Box))
  | 0 =>
    ⟨fun _ _ => .error .fuelOut, fun _ _ _ _ => .error .fuelOut,
      fun _ _ _ _ => .error .fuelOut⟩
  | fuel + 1 =>
    let p := decodeTriple fuel
    ⟨decodeBoxStep p.2.1 p.2.2, wvttChildrenStep p.1 p.2.1,
      containerChildrenStep p.1 p.2.2⟩

/-- The box decoder (spec's decode_box plus the source's box-specific
decoders), at a given recursion-depth fuel. -/
def decodeBox (fuel : Nat) : Nat → List Nat → Except DecErr (Box × List Nat) :=
  (decodeTriple fuel).1

/-- The child loop of DecodeWvtt from the source, at a given fuel. -/
def wvttChildren (fuel : Nat) :
    Nat → Nat → List Nat → List Box → Except DecErr (List Box) :=
  (decodeTriple fuel).2.1

/-- DecodeContainerChildren (modelled from the spec), at a given fuel. -/
def decodeContainerChildren (fuel : Nat) :
    Nat → Nat → List Nat → List Box → Except DecErr (List Box) :=
  (decodeTriple fuel).2.2

/-- Decode one box from the start of a byte list, with enough fuel for
any tree the bytes can describe (each box occupies at least one byte). -/
def decodeFromBytes (bytes : List Nat) : Except DecErr (Box × List Nat) :=
  decodeBox (bytes.length + 1) 0 bytes

/-- AddChild on the wvtt sample entry: the child is appended to the
ordered child list (named typed fields are derived, see wvttVttC). -/
def addChildWvtt : Box → Box → Box
  | .wvtt dri cs, c => .wvtt dri (cs ++ [c])
  | b, _ => b

/-- AddChild on the vttc cue box: the child is appended to the ordered
child list. -/
def addChildVttc : Box → Box → Box
  | .vttc cs, c => .vttc (cs ++ [c])
  | b, _ => b

mutual
/-- Trees of the wvtt leaf family with machine-representable fields:
no opaque raw boxes, the DataReferenceIndex fits uint16, the vsid
SourceID fits uint32, and every box size fits the 32-bit header size
field. -/
def wfB : Box → Bool
  | .wvtt dri cs => decide (dri < 2 ^ 16) &&
      decide (sizeB (.wvtt dri cs) < 2 ^ 32) && wfL cs
  | .vttC s => decide (sizeB (.vttC s) < 2 ^ 32)
  | .vlab s => decide (sizeB (.vlab s) < 2 ^ 32)
  | .vtte => true
  | .vttc cs => decide (sizeB (.vttc cs) < 2 ^ 32) && wfL cs
  | .vsid v => decide (v < 2 ^ 32)
  | .iden s => decide (sizeB (.iden s) < 2 ^ 32)
  | .ctim s => decide (sizeB (.ctim s) < 2 ^ 32)
  | .sttg s => decide (sizeB (.sttg s) < 2 ^ 32)
  | .payl s => decide (sizeB (.payl s) < 2 ^ 32)
  | .vtta s => decide (sizeB (.vtta s) < 2 ^ 32)
  | .unkn _ _ => false
/-- All boxes of a child list are well formed. -/
def wfL : List Box → Bool
  | [] => true
  | c :: cs => wfB c && wfL cs
end

mutual
/-- Recursion-depth measure for the decoder fuel: a box counts one plus
its child-list measure. -/
def ncB : Box → Nat
  | .wvtt _ cs => 1 + ncL cs
  | .vttc cs => 1 + ncL cs
  | _ => 1
/-- Child-list measure: enough fuel for the loop to decode each child
and to observe the end of the stream (the base case is 2: one loop
entry plus the box decoder step that reports the clean EOF). -/
def ncL : List Box → Nat
  | [] => 2
  | c :: cs => ncB c + ncL cs
end

/-! ## CENC sample decryption (decrypt-cenc example)

`mp4.DecryptSampleCTR` is not among the provided sources; it is
modelled from the spec's counter-mode description, parametric in the
block cipher E (AES-128 in the source).  `decryptSample` is translated
from the source. -/

/-- Decryption errors of the engine; outOfBounds models a Go
slice/index out-of-range panic. -/
inductive CencErr where
  | invalidKeyLength
  | invalidIVLength
  | outOfBounds
  deriving DecidableEq

/-- Modelled from the spec: per-sample metadata carried by mp4.Sample
(duration, size, flags, composition offset); mp4.Sample is not among
the provided sources, and decryptSample only copies it through. -/
structure Sample where
  flags : Nat
  dur : Nat
  size : Nat
  cto : Int
  deriving DecidableEq

/-- mp4.FullSample: sample metadata, decode time, and payload bytes. -/
structure FullSample where
  sample : Sample
  decodeTime : Nat
  data : List Nat
  deriving DecidableEq

/-- A senc subsample descriptor: a run of clear bytes followed by a run
of protected bytes (uint16/uint32 in the source; widths are immaterial
here since both are only summed and compared). -/
structure SubSamplePattern where
  bytesOfClearData : Nat
  bytesOfProtectedData : Nat
  deriving DecidableEq

/-- The parts of mp4.SencBox that decryptSample reads: the per-sample
IV table and the optional per-sample subsample lists. -/
structure SencBox where
  ivs : List (List Nat)
  subSamples : List (List SubSamplePattern)
  deriving DecidableEq

/-- Modelled from the spec: the counter-mode keystream — the 16-byte
counter block is seeded from the IV and incremented as a big-endian
counter per block; each counter block is enciphered with the block
cipher E under the key, and the first n bytes form the keystream. -/
def ctrKeystream (E : List Nat → List Nat → List Nat)
    (key iv : List Nat) (n : Nat) : List Nat :=
  ((List.range ((n + 15) / 16)).flatMap fun i =>
    E key (beBytes 16 ((beVal iv + i) % 2 ^ 128))).take n

/-- Counter-mode transform: XOR the data with the keystream (decryption
and encryption are the same operation). -/
def ctrXor (E : List Nat → List Nat → List Nat)
    (data key iv : List Nat) : List Nat :=
  List.zipWith Nat.xor data (ctrKeystream E key iv data.length)

/-- Modelled from the spec: mp4.DecryptSampleCTR decrypts one byte span
with AES-CTR; a wrong-length key or an IV that is not a full 16-byte
counter block is a hard error. -/
def decryptSampleCTR (E : List Nat → List Nat → List Nat)
    (data key iv : List Nat) : Except CencErr (List Nat) :=
  if key.length ≠ 16 then .error .invalidKeyLength
  else if iv.length ≠ 16 then .error .invalidIVLength
  else .ok (ctrXor E data key iv)

/-- The subsample loop of decryptSample from the source: copy each
clear span unchanged, then call DecryptSampleCTR on the following
protected span with the (same) normalized IV, walking pos across the
sample.  Go slicing data[pos : pos+n] panics when the bound exceeds
len(data); that is the outOfBounds error. -/
def subsampleWalk (E : List Nat → List Nat → List Nat)
    (key iv data : List Nat) : Nat → List SubSamplePattern →
    Except CencErr (List Nat)
  | _, [] => .ok []
  | pos, s :: rest =>
    let nrClear := s.bytesOfClearData
    let nrEnc := s.bytesOfProtectedData
    if data.length < pos + nrClear then .error .outOfBounds
    else if data.length < pos + nrClear + nrEnc then .error .outOfBounds
    else
      match decryptSampleCTR E ((data.drop (pos + nrClear)).take nrEnc) key iv with
      | .error e => .error e
      | .ok cryptOut =>
        match subsampleWalk E key iv data (pos + nrClear + nrEnc) rest with
        | .error e => .error e
        | .ok tail => .ok ((data.drop pos).take nrClear ++ cryptOut ++ tail)

/-- decryptSample from the source: look up the sample, normalize the IV
(an 8-byte IV is right-padded with 8 zero bytes; anything else is used
as-is), then either walk the subsample list or decrypt the whole
payload; the output copies the sample metadata and decode time
unchanged. -/
def decryptSample (E : List Nat → List Nat → List Nat) (i : Nat)
    (samples : List FullSample) (key : List Nat) (senc : SencBox) :
    Except CencErr FullSample :=
  match samples.get? i with
  | none => .error .outOfBounds
  | some smp =>
    match senc.ivs.get? i with
    | none => .error .outOfBounds
    | some iv0 =>
      let iv := if iv0.length = 8 then iv0 ++ List.replicate 8 0 else iv0
      if senc.subSamples.length ≠ 0 then
        match senc.subSamples.get? i with
        | none => .error .outOfBounds
        | some ss =>
          match subsampleWalk E key iv smp.data 0 ss with
          | .error e => .error e
          | .ok outData => .ok ⟨smp.sample, smp.decodeTime, outData⟩
      else
        match decryptSampleCTR E smp.data key iv with
        | .error e => .error e
        | .ok outData => .ok ⟨smp.sample, smp.decodeTime, outData⟩

/-- Sum of clear plus protected byte counts over a subsample list. -/
def sumCP (ss : List SubSamplePattern) : Nat :=
  (ss.map fun s => s.bytesOfClearData + s.bytesOfProtectedData).sum

/-- Follows the spec's words, as the reference the code is compared
against for the keystream-continuity claim: subsample decryption that
seeds the counter from the normalized IV once and continues the
keystream across the sample's protected spans in clear/protected
interleaving order (each protected span consumes the keystream segment
after the spans before it, which is exactly a single counter-mode pass
over the concatenation of all protected spans). -/
def continuousWalk (E : List Nat → List Nat → List Nat)
    (key iv data : List Nat) : Nat → Nat → List SubSamplePattern → List Nat
  | _, _, [] => []
  | pos, ksOff, s :: rest =>
    let c := s.bytesOfClearData
    let p := s.bytesOfProtectedData
    (data.drop pos).take c ++
      List.zipWith Nat.xor ((data.drop (pos + c)).take p)
        ((ctrKeystream E key iv (ksOff + p)).drop ksOff) ++
      continuousWalk E key iv data (pos + c + p) (ksOff + p) rest

/-- The identity-in-the-block cipher, a concrete stand-in block cipher
for counterexamples (its keystream is the counter blocks themselves). -/
def idCipher : List Nat → List Nat → List Nat := fun _ block => block

/-- A 16-byte all-zero key. -/
def key16 : List Nat := List.replicate 16 0

/-- A 16-byte all-zero IV. -/
def iv16 : List Nat := List.replicate 16 0

/-- Arbitrary fixed sample metadata for concrete samples. -/
def meta0 : Sample := ⟨0, 0, 0, 0⟩

end Mp4ff

namespace Mp4ff

theorem beBytes_length (n v : Nat) : (beBytes n v).length = n := by
  induction n generalizing v with
  | zero => rfl
  | succ n ih => simp [beBytes, ih]

theorem beVal_beBytes (n v : Nat) : beVal (beBytes n v) = v % 256 ^ n := by
  induction n generalizing v with
  | zero => simp [beBytes, beVal, Nat.mod_one]
  | succ n ih =>
      rw [beBytes, beVal, beBytes_length, ih,
        Nat.mod_mod_of_dvd _ (dvd_refl 256), pow_succ, Nat.mod_mul]
      ring

theorem decodeBox_succ (fuel : Nat) :
    decodeBox (fuel + 1) =
      decodeBoxStep (wvttChildren fuel) (decodeContainerChildren fuel) := rfl

theorem wvttChildren_succ (fuel : Nat) :
    wvttChildren (fuel + 1) =
      wvttChildrenStep (decodeBox fuel) (wvttChildren fuel) := rfl

theorem decodeContainerChildren_succ (fuel : Nat) :
    decodeContainerChildren (fuel + 1) =
      containerChildrenStep (decodeBox fuel) (decodeContainerChildren fuel) := rfl

theorem decodeBox_nil (fuel pos : Nat) :
    decodeBox (fuel + 1) pos [] = .error .eof := rfl

theorem sizeB_ge (T : Box) : 8 ≤ sizeB T := by
  match T with
  | .wvtt _ cs => simp [sizeB, nrWvttBytesBeforeChildren]; omega
  | .vttC s => simp [sizeB, boxHeaderSize]
  | .vlab s => simp [sizeB, boxHeaderSize]
  | .vtte => simp [sizeB, boxHeaderSize]
  | .vttc cs => simp [sizeB, boxHeaderSize]
  | .vsid v => simp [sizeB, boxHeaderSize]
  | .iden s => simp [sizeB, boxHeaderSize]
  | .ctim s => simp [sizeB, boxHeaderSize]
  | .sttg s => simp [sizeB, boxHeaderSize]
  | .payl s => simp [sizeB, boxHeaderSize]
  | .vtta s => simp [sizeB, boxHeaderSize]
  | .unkn t p => simp [sizeB, boxHeaderSize]

theorem sizeL_eq_sum_map (cs : List Box) : sizeL cs = (cs.map sizeB).sum := by
  induction cs with
  | nil => rfl
  | cons c cs ih => simp [sizeL, ih]

theorem sizeL_append (a b : List Box) : sizeL (a ++ b) = sizeL a + sizeL b := by
  induction a with
  | nil => simp [sizeL]
  | cons c cs ih => simp [sizeL, ih]; omega

theorem ncB_pos (T : Box) : 1 ≤ ncB T := by
  match T with
  | .wvtt _ cs => simp [ncB]
  | .vttC s => simp [ncB]
  | .vlab s => simp [ncB]
  | .vtte => simp [ncB]
  | .vttc cs => simp [ncB]
  | .vsid v => simp [ncB]
  | .iden s => simp [ncB]
  | .ctim s => simp [ncB]
  | .sttg s => simp [ncB]
  | .payl s => simp [ncB]
  | .vtta s => simp [ncB]
  | .unkn t p => simp [ncB]

theorem ncL_ge_two (cs : List Box) : 2 ≤ ncL cs := by
  induction cs with
  | nil => simp [ncL]
  | cons c cs ih => have := ncB_pos c; simp [ncL]; omega

mutual
theorem ncB_le_sizeB : ∀ T : Box, ncB T ≤ sizeB T
  | .wvtt dri cs => by
      have h := ncL_le_sizeL cs
      simp [ncB, sizeB, nrWvttBytesBeforeChildren]
      omega
  | .vttC s => by simp [ncB, sizeB, boxHeaderSize]; omega
  | .vlab s => by simp [ncB, sizeB, boxHeaderSize]; omega
  | .vtte => by simp [ncB, sizeB, boxHeaderSize]
  | .vttc cs => by
      have h := ncL_le_sizeL cs
      simp [ncB, sizeB, boxHeaderSize]
      omega
  | .vsid v => by simp [ncB, sizeB, boxHeaderSize]
  | .iden s => by simp [ncB, sizeB, boxHeaderSize]; omega
  | .ctim s => by simp [ncB, sizeB, boxHeaderSize]; omega
  | .sttg s => by simp [ncB, sizeB, boxHeaderSize]; omega
  | .payl s => by simp [ncB, sizeB, boxHeaderSize]; omega
  | .vtta s => by simp [ncB, sizeB, boxHeaderSize]; omega
  | .unkn t p => by simp [ncB, sizeB, boxHeaderSize]; omega
theorem ncL_le_sizeL : ∀ cs : List Box, ncL cs ≤ sizeL cs + 2
  | [] => by simp [ncL, sizeL]
  | c :: cs => by
      have h1 := ncB_le_sizeB c
      have h2 := ncL_le_sizeL cs
      simp [ncL, sizeL]
      omega
end

/-- The header of a box whose size fits 32 bits is the 4 size bytes
followed by the 4 type bytes. -/
theorem encodeHeader_small (t : List Nat) (s : Nat) (h : s < 2 ^ 32) :
    encodeHeader t s = beBytes 4 s ++ t := by
  unfold encodeHeader
  rw [if_pos h]

mutual
theorem encodeBox_length : ∀ T : Box, wfB T = true → (encodeBox T).length = sizeB T
  | .wvtt dri cs, h => by
      simp only [wfB, Bool.and_eq_true, decide_eq_true_eq] at h
      have hc := encodeL_length cs h.2
      simp only [encodeBox, encodeHeader_small _ _ h.1.2]
      simp [beBytes_length, sizeB, hc, nrWvttBytesBeforeChildren]
      omega
  | .vttC s, h => by
      simp only [wfB, decide_eq_true_eq] at h
      simp only [encodeBox, encodeHeader_small _ _ h]
      simp [beBytes_length, sizeB, boxHeaderSize]
      omega
  | .vlab s, h => by
      simp only [wfB, decide_eq_true_eq] at h
      simp only [encodeBox, encodeHeader_small _ _ h]
      simp [beBytes_length, sizeB, boxHeaderSize]
      omega
  | .vtte, h => rfl
  | .vttc cs, h => by
      simp only [wfB, Bool.and_eq_true, decide_eq_true_eq] at h
      have hc := encodeL_length cs h.2
      simp only [encodeBox, encodeHeader_small _ _ h.1]
      simp [beBytes_length, sizeB, hc, boxHeaderSize]
      omega
  | .vsid v, h => by
      simp [encodeBox, encodeHeader, beBytes_length, sizeB, boxHeaderSize]
  | .iden s, h => by
      simp only [wfB, decide_eq_true_eq] at h
      simp only [encodeBox, encodeHeader_small _ _ h]
      simp [beBytes_length, sizeB, boxHeaderSize]
      omega
  | .ctim s, h => by
      simp only [wfB, decide_eq_true_eq] at h
      simp only [encodeBox, encodeHeader_small _ _ h]
      simp [beBytes_length, sizeB, boxHeaderSize]
      omega
  | .sttg s, h => by
      simp only [wfB, decide_eq_true_eq] at h
      simp only [encodeBox, encodeHeader_small _ _ h]
      simp [beBytes_length, sizeB, boxHeaderSize]
      omega
  | .payl s, h => by
      simp only [wfB, decide_eq_true_eq] at h
      simp only [encodeBox, encodeHeader_small _ _ h]
      simp [beBytes_length, sizeB, boxHeaderSize]
      omega
  | .vtta s, h => by
      simp only [wfB, decide_eq_true_eq] at h
      simp only [encodeBox, encodeHeader_small _ _ h]
      simp [beBytes_length, sizeB, boxHeaderSize]
      omega
  | .unkn t p, h => by simp [wfB] at h
theorem encodeL_length : ∀ cs : List Box, wfL cs = true →
    (encodeL cs).length = sizeL cs
  | [], _ => rfl
  | c :: cs, h => by
      simp only [wfL, Bool.and_eq_true] at h
      have h1 := encodeBox_length c h.1
      have h2 := encodeL_length cs h.2
      simp [encodeL, sizeL, h1, h2]
end

end Mp4ff

namespace Mp4ff

theorem decodeHeader_encoded (s : Nat) (t tail : List Nat) (h8 : 8 ≤ s)
    (h32 : s < 2 ^ 32) (ht : t.length = 4) :
    decodeHeader (beBytes 4 s ++ (t ++ tail)) = .ok ⟨s, t, 8⟩ := by
  have hlen : (beBytes 4 s ++ (t ++ tail)).length = 8 + tail.length := by
    simp [beBytes_length, ht]
    omega
  have htake : (beBytes 4 s ++ (t ++ tail)).take 4 = beBytes 4 s :=
    List.take_left' (beBytes_length 4 s)
  have hdrop : (beBytes 4 s ++ (t ++ tail)).drop 4 = t ++ tail :=
    List.drop_left' (beBytes_length 4 s)
  have htyp : ((beBytes 4 s ++ (t ++ tail)).drop 4).take 4 = t := by
    rw [hdrop]
    exact List.take_left' ht
  have hval : beVal ((beBytes 4 s ++ (t ++ tail)).take 4) = s := by
    rw [htake, beVal_beBytes]
    have h32n : s < 4294967296 := by norm_num at h32; exact h32
    norm_num
    omega
  simp only [decodeHeader, hval, htyp, hlen]
  split_ifs
  all_goals first | rfl | (exfalso; omega)

theorem decodeBox_encoded_frame (f pos s : Nat) (t body rest : List Nat)
    (h8 : 8 ≤ s) (h32 : s < 2 ^ 32) (ht : t.length = 4)
    (hb : body.length = s - 8) :
    decodeBox (f + 1) pos (beBytes 4 s ++ (t ++ (body ++ rest))) =
      if t = [119, 118, 116, 116] then
        if body.length < 8 then .error .outOfRange
        else
          match wvttChildren f (pos + 16) (pos + s) (body.drop 8) [] with
          | .error e => .error e
          | .ok cs => .ok (Box.wvtt (beVal ((body.drop 6).take 2)) cs, rest)
      else if t = [118, 116, 116, 99] then
        match decodeContainerChildren f (pos + 8) (pos + s) body [] with
        | .error e => .error e
        | .ok cs => .ok (Box.vttc cs, rest)
      else
        match decodeLeaf t body with
        | .error e => .error e
        | .ok box => .ok (box, rest) := by
  have hdr := decodeHeader_encoded s t (body ++ rest) h8 h32 ht
  rw [decodeBox_succ]
  unfold decodeBoxStep
  rw [hdr]
  dsimp only
  have hdrop8 : (beBytes 4 s ++ (t ++ (body ++ rest))).drop 8 = body ++ rest := by
    rw [show (8 : Nat) = (beBytes 4 s ++ t).length from by simp [beBytes_length, ht],
      ← List.append_assoc]
    exact List.drop_left _ _
  rw [hdrop8]
  have hc1 : ¬((body ++ rest).length < s - 8) := by
    rw [List.length_append]
    omega
  rw [if_neg hc1]
  have htk : (body ++ rest).take (s - 8) = body := List.take_left' (by omega)
  have hdp : (body ++ rest).drop (s - 8) = rest := List.drop_left' (by omega)
  rw [htk, hdp]
  rfl

theorem decodeLeaf_vttC (b : List Nat) :
    decodeLeaf [118, 116, 116, 67] b = .ok (.vttC b) := rfl

theorem decodeLeaf_vlab (b : List Nat) :
    decodeLeaf [118, 108, 97, 98] b = .ok (.vlab b) := rfl

theorem decodeLeaf_vtte (b : List Nat) :
    decodeLeaf [118, 116, 116, 101] b = .ok .vtte := rfl

theorem decodeLeaf_iden (b : List Nat) :
    decodeLeaf [105, 100, 101, 110] b = .ok (.iden b) := rfl

theorem decodeLeaf_ctim (b : List Nat) :
    decodeLeaf [99, 116, 105, 109] b = .ok (.ctim b) := rfl

theorem decodeLeaf_sttg (b : List Nat) :
    decodeLeaf [115, 116, 116, 103] b = .ok (.sttg b) := rfl

theorem decodeLeaf_payl (b : List Nat) :
    decodeLeaf [112, 97, 121, 108] b = .ok (.payl b) := rfl

theorem decodeLeaf_vtta (b : List Nat) :
    decodeLeaf [118, 116, 116, 97] b = .ok (.vtta b) := rfl

theorem decodeLeaf_vsid (v : Nat) :
    decodeLeaf [118, 115, 105, 100] (beBytes 4 v) = .ok (.vsid (v % 2 ^ 32)) := by
  have h4 : (beBytes 4 v).take 4 = beBytes 4 v :=
    List.take_of_length_le (by simp [beBytes_length])
  simp [decodeLeaf, decodeVsid, beBytes_length, h4, beVal_beBytes]

end Mp4ff

namespace Mp4ff

theorem roundtripAux : ∀ fuel : Nat,
    (∀ T pos rest, wfB T = true → ncB T ≤ fuel →
        decodeBox fuel pos (encodeBox T ++ rest) = .ok (T, rest)) ∧
    (∀ cs pos acc, wfL cs = true → ncL cs ≤ fuel →
        wvttChildren fuel pos (pos + sizeL cs) (encodeL cs) acc =
          .ok (acc ++ cs)) ∧
    (∀ cs pos acc, wfL cs = true → ncL cs ≤ fuel →
        decodeContainerChildren fuel pos (pos + sizeL cs) (encodeL cs) acc =
          .ok (acc ++ cs)) := by
  intro fuel
  induction fuel with
  | zero =>
      refine ⟨?_, ?_, ?_⟩
      · intro T pos rest hwf hnc
        have := ncB_pos T
        omega
      · intro cs pos acc hwf hnc
        have := ncL_ge_two cs
        omega
      · intro cs pos acc hwf hnc
        have := ncL_ge_two cs
        omega
  | succ f ih =>
      obtain ⟨ihB, ihW, ihC⟩ := ih
      refine ⟨?_, ?_, ?_⟩
      · intro T pos rest hwf hnc
        match T with
        | .wvtt dri cs =>
            simp only [wfB, Bool.and_eq_true, decide_eq_true_eq] at hwf
            obtain ⟨⟨hdri, hsz⟩, hcs⟩ := hwf
            have hncL : ncL cs ≤ f := by
              simp only [ncB] at hnc
              omega
            have hbytes : encodeBox (.wvtt dri cs) ++ rest =
                beBytes 4 (sizeB (.wvtt dri cs)) ++ ([119, 118, 116, 116] ++
                  (((List.replicate 6 0 ++ beBytes 2 dri) ++ encodeL cs) ++ rest)) := by
              simp only [encodeBox, encodeHeader_small _ _ hsz]
              simp [List.append_assoc]
            have hb : ((List.replicate 6 0 ++ beBytes 2 dri) ++ encodeL cs).length =
                sizeB (.wvtt dri cs) - 8 := by
              simp only [List.length_append, List.length_replicate, beBytes_length,
                encodeL_length cs hcs, sizeB, nrWvttBytesBeforeChildren]
              omega
            rw [hbytes, decodeBox_encoded_frame f pos (sizeB (.wvtt dri cs))
              [119, 118, 116, 116] ((List.replicate 6 0 ++ beBytes 2 dri) ++ encodeL cs)
              rest (sizeB_ge _) hsz rfl hb]
            rw [if_pos rfl]
            have hb8 : ((List.replicate 6 0 ++ beBytes 2 dri) ++ encodeL cs).length =
                8 + sizeL cs := by
              simp [beBytes_length, encodeL_length cs hcs]
              omega
            rw [if_neg (by omega)]
            have hdrop8 : ((List.replicate 6 0 ++ beBytes 2 dri) ++ encodeL cs).drop 8 =
                encodeL cs :=
              List.drop_left' (by simp [beBytes_length])
            have hend : pos + sizeB (.wvtt dri cs) = pos + 16 + sizeL cs := by
              simp only [sizeB, nrWvttBytesBeforeChildren]
              omega
            rw [hdrop8, hend, ihW cs (pos + 16) [] hcs hncL, List.nil_append]
            have hdri2 : beVal ((((List.replicate 6 0 ++ beBytes 2 dri) ++
                encodeL cs).drop 6).take 2) = dri := by
              have h1 : ((List.replicate 6 0 ++ beBytes 2 dri) ++ encodeL cs).drop 6 =
                  beBytes 2 dri ++ encodeL cs := by
                rw [List.append_assoc]
                exact List.drop_left' (by simp)
              rw [h1, List.take_left' (beBytes_length 2 dri), beVal_beBytes]
              have : dri < 256 ^ 2 := by norm_num; omega
              exact Nat.mod_eq_of_lt this
            rw [hdri2]
        | .vttc cs =>
            simp only [wfB, Bool.and_eq_true, decide_eq_true_eq] at hwf
            obtain ⟨hsz, hcs⟩ := hwf
            have hncL : ncL cs ≤ f := by
              simp only [ncB] at hnc
              omega
            have hbytes : encodeBox (.vttc cs) ++ rest =
                beBytes 4 (sizeB (.vttc cs)) ++ ([118, 116, 116, 99] ++
                  (encodeL cs ++ rest)) := by
              simp only [encodeBox, encodeHeader_small _ _ hsz]
              simp [List.append_assoc]
            have hb : (encodeL cs).length = sizeB (.vttc cs) - 8 := by
              simp only [encodeL_length cs hcs, sizeB, boxHeaderSize]
              omega
            rw [hbytes, decodeBox_encoded_frame f pos (sizeB (.vttc cs))
              [118, 116, 116, 99] (encodeL cs) rest (sizeB_ge _) hsz rfl hb]
            rw [if_neg (by decide), if_pos rfl]
            have hend : pos + sizeB (.vttc cs) = pos + 8 + sizeL cs := by
              simp only [sizeB, boxHeaderSize]
              omega
            rw [hend, ihC cs (pos + 8) [] hcs hncL, List.nil_append]
        | .vttC s =>
            simp only [wfB, decide_eq_true_eq] at hwf
            have hbytes : encodeBox (.vttC s) ++ rest =
                beBytes 4 (sizeB (.vttC s)) ++ ([118, 116, 116, 67] ++ (s ++ rest)) := by
              simp only [encodeBox, encodeHeader_small _ _ hwf]
              simp [List.append_assoc]
            rw [hbytes, decodeBox_encoded_frame f pos (sizeB (.vttC s))
              [118, 116, 116, 67] s rest (sizeB_ge _) hwf rfl
              (by simp only [sizeB, boxHeaderSize]; omega)]
            rw [if_neg (by decide), if_neg (by decide), decodeLeaf_vttC]
        | .vlab s =>
            simp only [wfB, decide_eq_true_eq] at hwf
            have hbytes : encodeBox (.vlab s) ++ rest =
                beBytes 4 (sizeB (.vlab s)) ++ ([118, 108, 97, 98] ++ (s ++ rest)) := by
              simp only [encodeBox, encodeHeader_small _ _ hwf]
              simp [List.append_assoc]
            rw [hbytes, decodeBox_encoded_frame f pos (sizeB (.vlab s))
              [118, 108, 97, 98] s rest (sizeB_ge _) hwf rfl
              (by simp only [sizeB, boxHeaderSize]; omega)]
            rw [if_neg (by decide), if_neg (by decide), decodeLeaf_vlab]
        | .vtte =>
            have hbytes : encodeBox .vtte ++ rest =
                beBytes 4 (sizeB .vtte) ++ ([118, 116, 116, 101] ++
                  (([] : List Nat) ++ rest)) := rfl
            rw [hbytes, decodeBox_encoded_frame f pos (sizeB .vtte)
              [118, 116, 116, 101] [] rest (sizeB_ge _) (by decide) rfl (by decide)]
            rw [if_neg (by decide), if_neg (by decide), decodeLeaf_vtte]
        | .vsid v =>
            simp only [wfB, decide_eq_true_eq] at hwf
            have hbytes : encodeBox (.vsid v) ++ rest =
                beBytes 4 (sizeB (.vsid v)) ++ ([118, 115, 105, 100] ++
                  (beBytes 4 v ++ rest)) := by
              have h12 : sizeB (Box.vsid v) < 2 ^ 32 := by
                norm_num [sizeB, boxHeaderSize]
              simp only [encodeBox, encodeHeader_small _ _ h12]
              simp [List.append_assoc]
            rw [hbytes, decodeBox_encoded_frame f pos (sizeB (.vsid v))
              [118, 115, 105, 100] (beBytes 4 v) rest (sizeB_ge _)
              (by norm_num [sizeB, boxHeaderSize]) rfl
              (by norm_num [beBytes_length, sizeB, boxHeaderSize])]
            rw [if_neg (by decide), if_neg (by decide), decodeLeaf_vsid]
            rw [Nat.mod_eq_of_lt hwf]
        | .iden s =>
            simp only [wfB, decide_eq_true_eq] at hwf
            have hbytes : encodeBox (.iden s) ++ rest =
                beBytes 4 (sizeB (.iden s)) ++ ([105, 100, 101, 110] ++ (s ++ rest)) := by
              simp only [encodeBox, encodeHeader_small _ _ hwf]
              simp [List.append_assoc]
            rw [hbytes, decodeBox_encoded_frame f pos (sizeB (.iden s))
              [105, 100, 101, 110] s rest (sizeB_ge _) hwf rfl
              (by simp only [sizeB, boxHeaderSize]; omega)]
            rw [if_neg (by decide), if_neg (by decide), decodeLeaf_iden]
        | .ctim s =>
            simp only [wfB, decide_eq_true_eq] at hwf
            have hbytes : encodeBox (.ctim s) ++ rest =
                beBytes 4 (sizeB (.ctim s)) ++ ([99, 116, 105, 109] ++ (s ++ rest)) := by
              simp only [encodeBox, encodeHeader_small _ _ hwf]
              simp [List.append_assoc]
            rw [hbytes, decodeBox_encoded_frame f pos (sizeB (.ctim s))
              [99, 116, 105, 109] s rest (sizeB_ge _) hwf rfl
              (by simp only [sizeB, boxHeaderSize]; omega)]
            rw [if_neg (by decide), if_neg (by decide), decodeLeaf_ctim]
        | .sttg s =>
            simp only [wfB, decide_eq_true_eq] at hwf
            have hbytes : encodeBox (.sttg s) ++ rest =
                beBytes 4 (sizeB (.sttg s)) ++ ([115, 116, 116, 103] ++ (s ++ rest)) := by
              simp only [encodeBox, encodeHeader_small _ _ hwf]
              simp [List.append_assoc]
            rw [hbytes, decodeBox_encoded_frame f pos (sizeB (.sttg s))
              [115, 116, 116, 103] s rest (sizeB_ge _) hwf rfl
              (by simp only [sizeB, boxHeaderSize]; omega)]
            rw [if_neg (by decide), if_neg (by decide), decodeLeaf_sttg]
        | .payl s =>
            simp only [wfB, decide_eq_true_eq] at hwf
            have hbytes : encodeBox (.payl s) ++ rest =
                beBytes 4 (sizeB (.payl s)) ++ ([112, 97, 121, 108] ++ (s ++ rest)) := by
              simp only [encodeBox, encodeHeader_small _ _ hwf]
              simp [List.append_assoc]
            rw [hbytes, decodeBox_encoded_frame f pos (sizeB (.payl s))
              [112, 97, 121, 108] s rest (sizeB_ge _) hwf rfl
              (by simp only [sizeB, boxHeaderSize]; omega)]
            rw [if_neg (by decide), if_neg (by decide), decodeLeaf_payl]
        | .vtta s =>
            simp only [wfB, decide_eq_true_eq] at hwf
            have hbytes : encodeBox (.vtta s) ++ rest =
                beBytes 4 (sizeB (.vtta s)) ++ ([118, 116, 116, 97] ++ (s ++ rest)) := by
              simp only [encodeBox, encodeHeader_small _ _ hwf]
              simp [List.append_assoc]
            rw [hbytes, decodeBox_encoded_frame f pos (sizeB (.vtta s))
              [118, 116, 116, 97] s rest (sizeB_ge _) hwf rfl
              (by simp only [sizeB, boxHeaderSize]; omega)]
            rw [if_neg (by decide), if_neg (by decide), decodeLeaf_vtta]
        | .unkn t p => simp [wfB] at hwf
      · intro cs pos acc hwf hnc
        rw [wvttChildren_succ]
        unfold wvttChildrenStep
        match cs with
        | [] =>
            have hf : 1 ≤ f := by
              simp only [ncL] at hnc
              omega
            obtain ⟨g, rfl⟩ : ∃ g, f = g + 1 := ⟨f - 1, by omega⟩
            rw [show encodeL [] = ([] : List Nat) from rfl, decodeBox_nil]
            simp
        | c :: cs' =>
            have hwf2 : wfB c = true ∧ wfL cs' = true := by
              simpa [wfL, Bool.and_eq_true] using hwf
            have hnc1 : ncB c ≤ f := by
              have h2 := ncL_ge_two cs'
              simp only [ncL] at hnc
              omega
            have hdec : decodeBox f pos (encodeBox c ++ encodeL cs') =
                .ok (c, encodeL cs') := ihB c pos (encodeL cs') hwf2.1 hnc1
            rw [show encodeL (c :: cs') = encodeBox c ++ encodeL cs' from rfl, hdec]
            dsimp only
            cases cs' with
            | nil =>
                rw [if_pos (by simp [sizeL])]
            | cons d ds =>
                have hge : 8 ≤ sizeL (d :: ds) := by
                  have := sizeB_ge d
                  simp only [sizeL]
                  omega
                have hcons : sizeL (c :: d :: ds) = sizeB c + sizeL (d :: ds) := rfl
                have hne : ¬(pos + sizeB c = pos + sizeL (c :: d :: ds)) := by
                  rw [hcons]
                  omega
                have hnlt : ¬(pos + sizeL (c :: d :: ds) < pos + sizeB c) := by
                  rw [hcons]
                  omega
                rw [if_neg hne, if_neg hnlt]
                have hrec := ihW (d :: ds) (pos + sizeB c) (acc ++ [c]) hwf2.2
                  (by
                    have h1 := ncB_pos c
                    have h2 : ncL (c :: d :: ds) = ncB c + ncL (d :: ds) := rfl
                    rw [h2] at hnc
                    omega)
                have hend : pos + sizeL (c :: d :: ds) =
                    pos + sizeB c + sizeL (d :: ds) := by
                  rw [hcons]
                  omega
                rw [hend, hrec]
                simp
      · intro cs pos acc hwf hnc
        rw [decodeContainerChildren_succ]
        unfold containerChildrenStep
        match cs with
        | [] =>
            rw [if_pos (by simp [sizeL])]
            simp
        | c :: cs' =>
            have hwf2 : wfB c = true ∧ wfL cs' = true := by
              simpa [wfL, Bool.and_eq_true] using hwf
            have hnc1 : ncB c ≤ f := by
              have h2 := ncL_ge_two cs'
              simp only [ncL] at hnc
              omega
            have hcons : sizeL (c :: cs') = sizeB c + sizeL cs' := rfl
            have hne : ¬(pos = pos + sizeL (c :: cs')) := by
              have := sizeB_ge c
              rw [hcons]
              omega
            rw [if_neg hne]
            have hdec : decodeBox f pos (encodeBox c ++ encodeL cs') =
                .ok (c, encodeL cs') := ihB c pos (encodeL cs') hwf2.1 hnc1
            rw [show encodeL (c :: cs') = encodeBox c ++ encodeL cs' from rfl, hdec]
            dsimp only
            have hnlt : ¬(pos + sizeL (c :: cs') < pos + sizeB c) := by
              rw [hcons]
              omega
            rw [if_neg hnlt]
            have hrec := ihC cs' (pos + sizeB c) (acc ++ [c]) hwf2.2
              (by
                have h1 := ncB_pos c
                have h2 : ncL (c :: cs') = ncB c + ncL cs' := rfl
                rw [h2] at hnc
                omega)
            have hend : pos + sizeL (c :: cs') = pos + sizeB c + sizeL cs' := by
              rw [hcons]
              omega
            rw [hend, hrec]
            simp

end Mp4ff

namespace Mp4ff

/-- C4: for every well-formed tree of the wvtt leaf family, decoding the
bytes produced by encoding it yields the same tree field-for-field (and
consumes the bytes exactly), and the decoded tree's size equals the
original tree's size. -/
theorem wvtt_roundtrip (T : Box) (hwf : wfB T = true) :
    decodeFromBytes (encodeBox T) = .ok (T, []) ∧
    ∀ b rest, decodeFromBytes (encodeBox T) = .ok (b, rest) → sizeB b = sizeB T := by
  have h1 := ncB_le_sizeB T
  have h2 := encodeBox_length T hwf
  have h := (roundtripAux ((encodeBox T).length + 1)).1 T 0 [] hwf (by omega)
  rw [List.append_nil] at h
  have hdf : decodeFromBytes (encodeBox T) =
      decodeBox ((encodeBox T).length + 1) 0 (encodeBox T) := rfl
  constructor
  · rw [hdf]
    exact h
  · intro b rest hb
    rw [hdf, h] at hb
    simp only [Except.ok.injEq, Prod.mk.injEq] at hb
    rw [← hb.1]

/-- C4 witness: a concrete wvtt tree with a configuration leaf, a nested
cue container, and an empty cue round-trips exactly. -/
theorem wvtt_roundtrip_witness :
    wfB (.wvtt 1 [.vttC [97], .vttc [.vsid 5, .payl [104, 105]], .vtte]) = true ∧
    decodeFromBytes
        (encodeBox (.wvtt 1 [.vttC [97], .vttc [.vsid 5, .payl [104, 105]], .vtte])) =
      .ok (.wvtt 1 [.vttC [97], .vttc [.vsid 5, .payl [104, 105]], .vtte], []) :=
  ⟨rfl, (wvtt_roundtrip (.wvtt 1 [.vttC [97], .vttc [.vsid 5, .payl [104, 105]], .vtte]) rfl).1⟩

/-- C5: when a decoded child pushes the running offset beyond the
container's end offset, the wvtt child loop stops with the hard Bad size
in wvtt error and the (spec-modelled) container children loop stops with
MalformedContainer; neither returns a truncated child list. -/
theorem container_overrun_hard_error :
    (∀ fuel pos endPos bytes acc box rest,
        decodeBox fuel pos bytes = .ok (box, rest) →
        endPos < pos + sizeB box →
        wvttChildren (fuel + 1) pos endPos bytes acc = .error .badSizeWvtt) ∧
    (∀ fuel pos endPos bytes acc box rest,
        decodeBox fuel pos bytes = .ok (box, rest) →
        pos ≠ endPos →
        endPos < pos + sizeB box →
        decodeContainerChildren (fuel + 1) pos endPos bytes acc =
          .error .malformedContainer) := by
  constructor
  · intro fuel pos endPos bytes acc box rest hdec hlt
    rw [wvttChildren_succ]
    unfold wvttChildrenStep
    rw [hdec]
    dsimp only
    rw [if_neg (by omega), if_pos hlt]
  · intro fuel pos endPos bytes acc box rest hdec hne hlt
    rw [decodeContainerChildren_succ]
    unfold containerChildrenStep
    rw [if_neg hne, hdec]
    dsimp only
    rw [if_pos hlt]

/-- C5 witness: an 8-byte vtte child decoded inside a container whose
declared end offset is only 4 bytes away trips both hard errors. -/
theorem container_overrun_hard_error_witness :
    wvttChildren 2 0 4 (encodeBox .vtte) [] = .error .badSizeWvtt ∧
    decodeContainerChildren 2 0 4 (encodeBox .vtte) [] =
      .error .malformedContainer :=
  ⟨container_overrun_hard_error.1 1 0 4 (encodeBox .vtte) [] .vtte [] rfl
      (by decide),
   container_overrun_hard_error.2 1 0 4 (encodeBox .vtte) [] .vtte [] rfl
      (by decide) (by decide)⟩

theorem foldl_addChildWvtt (dri : Nat) (cs added : List Box) :
    List.foldl addChildWvtt (Box.wvtt dri cs) added = .wvtt dri (cs ++ added) := by
  induction added generalizing cs with
  | nil => simp
  | cons b bs ih => simp [List.foldl_cons, addChildWvtt, ih]

theorem foldl_addChildVttc (cs added : List Box) :
    List.foldl addChildVttc (Box.vttc cs) added = .vttc (cs ++ added) := by
  induction added generalizing cs with
  | nil => simp
  | cons b bs ih => simp [List.foldl_cons, addChildVttc, ih]

/-- C6: after any sequence of AddChild appends, a wvtt container's size
is its 16 fixed pre-children bytes plus the sum of the current children's
sizes, and a vttc container's size is the 8-byte header plus the sum of
the current children's sizes — recomputed on demand, so the invariant
holds immediately after each append. -/
theorem container_size_invariant :
    (∀ dri cs added, sizeB (List.foldl addChildWvtt (Box.wvtt dri cs) added) =
        nrWvttBytesBeforeChildren + ((cs ++ added).map sizeB).sum) ∧
    (∀ cs added, sizeB (List.foldl addChildVttc (Box.vttc cs) added) =
        boxHeaderSize + ((cs ++ added).map sizeB).sum) := by
  constructor
  · intro dri cs added
    rw [foldl_addChildWvtt,
      show sizeB (Box.wvtt dri (cs ++ added)) =
        nrWvttBytesBeforeChildren + sizeL (cs ++ added) from rfl,
      sizeL_eq_sum_map]
  · intro cs added
    rw [foldl_addChildVttc,
      show sizeB (Box.vttc (cs ++ added)) =
        boxHeaderSize + sizeL (cs ++ added) from rfl,
      sizeL_eq_sum_map]

/-- C8: every empty-payload leaf of the family (vtte, and the text
leaves with empty text) has size exactly the header size, encodes to
exactly header-size bytes, and its encoding decodes back to the
empty-payload instance. -/
theorem empty_payload_leaf_boxes :
    (sizeB .vtte = boxHeaderSize ∧ (encodeBox .vtte).length = boxHeaderSize ∧
      decodeFromBytes (encodeBox .vtte) = .ok (.vtte, [])) ∧
    (sizeB (.vttC []) = boxHeaderSize ∧
      (encodeBox (.vttC [])).length = boxHeaderSize ∧
      decodeFromBytes (encodeBox (.vttC [])) = .ok (.vttC [], [])) ∧
    (sizeB (.vlab []) = boxHeaderSize ∧
      (encodeBox (.vlab [])).length = boxHeaderSize ∧
      decodeFromBytes (encodeBox (.vlab [])) = .ok (.vlab [], [])) ∧
    (sizeB (.iden []) = boxHeaderSize ∧
      (encodeBox (.iden [])).length = boxHeaderSize ∧
      decodeFromBytes (encodeBox (.iden [])) = .ok (.iden [], [])) ∧
    (sizeB (.ctim []) = boxHeaderSize ∧
      (encodeBox (.ctim [])).length = boxHeaderSize ∧
      decodeFromBytes (encodeBox (.ctim [])) = .ok (.ctim [], [])) ∧
    (sizeB (.sttg []) = boxHeaderSize ∧
      (encodeBox (.sttg [])).length = boxHeaderSize ∧
      decodeFromBytes (encodeBox (.sttg [])) = .ok (.sttg [], [])) ∧
    (sizeB (.payl []) = boxHeaderSize ∧
      (encodeBox (.payl [])).length = boxHeaderSize ∧
      decodeFromBytes (encodeBox (.payl [])) = .ok (.payl [], [])) ∧
    (sizeB (.vtta []) = boxHeaderSize ∧
      (encodeBox (.vtta [])).length = boxHeaderSize ∧
      decodeFromBytes (encodeBox (.vtta [])) = .ok (.vtta [], [])) :=
  ⟨⟨rfl, rfl, rfl⟩, ⟨rfl, rfl, rfl⟩, ⟨rfl, rfl, rfl⟩, ⟨rfl, rfl, rfl⟩,
   ⟨rfl, rfl, rfl⟩, ⟨rfl, rfl, rfl⟩, ⟨rfl, rfl, rfl⟩, ⟨rfl, rfl, rfl⟩⟩

/-- C9: DecodeVsid reads the first four payload bytes with no bounds
check; it yields the embedded big-endian value exactly when the payload
has at least 4 bytes, and a shorter payload is an out-of-range access
(a Go slice panic, modelled as the outOfRange error). -/
theorem vsid_needs_four_bytes (data : List Nat) :
    (4 ≤ data.length → decodeVsid data = .ok (.vsid (beVal (data.take 4)))) ∧
    (data.length < 4 → decodeVsid data = .error .outOfRange) := by
  constructor
  · intro h
    unfold decodeVsid
    rw [if_pos h]
  · intro h
    unfold decodeVsid
    rw [if_neg (by omega)]

/-- C9 witness: a 4-byte payload decodes to its value; a 1-byte payload
is the out-of-range access. -/
theorem vsid_needs_four_bytes_witness :
    (4 ≤ ([0, 0, 1, 5] : List Nat).length ∧
      decodeVsid [0, 0, 1, 5] = .ok (.vsid (beVal (([0, 0, 1, 5] : List Nat).take 4)))) ∧
    (([9] : List Nat).length < 4 ∧ decodeVsid [9] = .error .outOfRange) :=
  ⟨⟨by decide, (vsid_needs_four_bytes [0, 0, 1, 5]).1 (by decide)⟩,
   ⟨by decide, (vsid_needs_four_bytes [9]).2 (by decide)⟩⟩

/-- C10: a vtte box whose declared size implies a nonzero payload still
decodes successfully (the payload bytes are consumed but dropped), the
decoded box's size is the bare header size, and it re-encodes to
header-size bytes, so byte-exact decode-then-encode fails on such
input. -/
theorem vtte_declared_payload_dropped (extra : List Nat) (hne : extra ≠ [])
    (hsz : 8 + extra.length < 2 ^ 32) :
    decodeFromBytes (beBytes 4 (8 + extra.length) ++
        ([118, 116, 116, 101] ++ extra)) = .ok (.vtte, []) ∧
    sizeB .vtte = boxHeaderSize ∧
    encodeBox .vtte ≠ beBytes 4 (8 + extra.length) ++
        ([118, 116, 116, 101] ++ extra) := by
  refine ⟨?_, rfl, ?_⟩
  · rw [show beBytes 4 (8 + extra.length) ++ ([118, 116, 116, 101] ++ extra) =
        beBytes 4 (8 + extra.length) ++ ([118, 116, 116, 101] ++ (extra ++ []))
      from by simp]
    have hdf : decodeFromBytes (beBytes 4 (8 + extra.length) ++
          ([118, 116, 116, 101] ++ (extra ++ []))) =
        decodeBox ((beBytes 4 (8 + extra.length) ++
          ([118, 116, 116, 101] ++ (extra ++ []))).length + 1) 0
          (beBytes 4 (8 + extra.length) ++
            ([118, 116, 116, 101] ++ (extra ++ []))) := rfl
    rw [hdf, decodeBox_encoded_frame _ 0 (8 + extra.length) [118, 116, 116, 101]
      extra [] (by omega) hsz rfl (by omega)]
    rw [if_neg (by decide), if_neg (by decide), decodeLeaf_vtte]
  · intro heq
    have h8 : (encodeBox Box.vtte).length = 8 := rfl
    rw [heq] at h8
    simp [beBytes_length] at h8
    exact hne (List.length_eq_zero.mp (by omega))

/-- C10 witness: a vtte box declaring a 1-byte payload decodes to the
bare vtte and re-encodes to 8 bytes, not the original 9. -/
theorem vtte_declared_payload_dropped_witness :
    ([42] : List Nat) ≠ [] ∧ 8 + ([42] : List Nat).length < 2 ^ 32 ∧
    (decodeFromBytes (beBytes 4 (8 + ([42] : List Nat).length) ++
        ([118, 116, 116, 101] ++ [42])) = .ok (.vtte, []) ∧
      sizeB .vtte = boxHeaderSize ∧
      encodeBox .vtte ≠ beBytes 4 (8 + ([42] : List Nat).length) ++
        ([118, 116, 116, 101] ++ [42])) :=
  ⟨by decide, by decide,
   vtte_declared_payload_dropped [42] (by decide) (by decide)⟩

end Mp4ff

namespace Mp4ff

theorem flatMap_length_16 (l : List Nat) (f : Nat → List Nat)
    (h : ∀ a, (f a).length = 16) : (l.flatMap f).length = 16 * l.length := by
  induction l with
  | nil => simp
  | cons a as ih =>
      simp [List.flatMap_cons, h, ih]
      ring

theorem ctrKeystream_length (E : List Nat → List Nat → List Nat)
    (key iv : List Nat) (n : Nat) (hE : ∀ k b, (E k b).length = 16) :
    (ctrKeystream E key iv n).length = n := by
  unfold ctrKeystream
  rw [List.length_take, flatMap_length_16 _ _ (fun a => hE key _),
    List.length_range]
  have h1 := Nat.div_add_mod (n + 15) 16
  have h2 : (n + 15) % 16 < 16 := Nat.mod_lt _ (by omega)
  omega

theorem ctrXor_length (E : List Nat → List Nat → List Nat)
    (data key iv : List Nat) (hE : ∀ k b, (E k b).length = 16) :
    (ctrXor E data key iv).length = data.length := by
  unfold ctrXor
  rw [List.length_zipWith, ctrKeystream_length E key iv data.length hE]
  omega

theorem decryptSampleCTR_ok (E : List Nat → List Nat → List Nat)
    (data key iv : List Nat) (hkey : key.length = 16) (hiv : iv.length = 16) :
    decryptSampleCTR E data key iv = .ok (ctrXor E data key iv) := by
  unfold decryptSampleCTR
  rw [if_neg (by omega), if_neg (by omega)]

theorem subsampleWalk_ok (E : List Nat → List Nat → List Nat)
    (key iv data : List Nat) (hE : ∀ k b, (E k b).length = 16)
    (hkey : key.length = 16) (hiv : iv.length = 16) :
    ∀ ss pos, pos + sumCP ss ≤ data.length →
      ∃ out, subsampleWalk E key iv data pos ss = .ok out ∧
        out.length = sumCP ss := by
  intro ss
  induction ss with
  | nil =>
      intro pos h
      exact ⟨[], rfl, rfl⟩
  | cons s rest ih =>
      intro pos h
      have hsum : sumCP (s :: rest) =
          s.bytesOfClearData + s.bytesOfProtectedData + sumCP rest := by
        simp [sumCP]
      rw [hsum] at h
      obtain ⟨tail, htail, hlen⟩ :=
        ih (pos + s.bytesOfClearData + s.bytesOfProtectedData) (by omega)
      refine ⟨(data.drop pos).take s.bytesOfClearData ++
        ctrXor E ((data.drop (pos + s.bytesOfClearData)).take
          s.bytesOfProtectedData) key iv ++ tail, ?_, ?_⟩
      · simp only [subsampleWalk]
        rw [if_neg (by omega), if_neg (by omega),
          decryptSampleCTR_ok E _ key iv hkey hiv, htail]
      · rw [hsum]
        simp [List.length_append, List.length_take, List.length_drop,
          ctrXor_length E _ key iv hE, hlen]
        omega

/-- C7: for valid inputs (16-byte key, 8- or 16-byte IV, subsample sums
matching the payload size when a subsample list is present, and a block
cipher producing 16-byte blocks), decryptSample succeeds with an output
whose payload has exactly the input payload's length, and whose sample
metadata and decode time are copied from the input unchanged. -/
theorem decrypt_preserves_length_and_metadata
    (E : List Nat → List Nat → List Nat) (i : Nat) (samples : List FullSample)
    (key : List Nat) (senc : SencBox) (smp : FullSample) (iv0 : List Nat)
    (hE : ∀ k b, (E k b).length = 16)
    (hs : samples.get? i = some smp)
    (hiv : senc.ivs.get? i = some iv0)
    (hkey : key.length = 16)
    (hivlen : iv0.length = 8 ∨ iv0.length = 16)
    (hss : senc.subSamples = [] ∨
      ∃ ss, senc.subSamples.get? i = some ss ∧ sumCP ss = smp.data.length) :
    ∃ out, decryptSample E i samples key senc = .ok out ∧
      out.data.length = smp.data.length ∧
      out.sample = smp.sample ∧ out.decodeTime = smp.decodeTime := by
  unfold decryptSample
  rw [hs, hiv]
  dsimp only
  obtain ⟨ivN, hN, hlenN⟩ : ∃ ivN,
      (if iv0.length = 8 then iv0 ++ List.replicate 8 0 else iv0) = ivN ∧
      ivN.length = 16 := by
    rcases hivlen with h8 | h16
    · exact ⟨iv0 ++ List.replicate 8 0, if_pos h8, by simp [h8]⟩
    · exact ⟨iv0, if_neg (by omega), h16⟩
  rw [hN]
  rcases hss with hempty | ⟨ss, hget, hsum⟩
  · rw [hempty, if_neg (by simp),
      decryptSampleCTR_ok E smp.data key ivN hkey hlenN]
    exact ⟨_, rfl, ctrXor_length E smp.data key ivN hE, rfl, rfl⟩
  · have hne0 : senc.subSamples.length ≠ 0 := by
      intro h0
      rw [List.length_eq_zero.mp h0] at hget
      simp at hget
    rw [if_pos hne0, hget]
    dsimp only
    obtain ⟨out, hwalk, hlen⟩ :=
      subsampleWalk_ok E key ivN smp.data hE hkey hlenN ss 0 (by omega)
    rw [hwalk]
    exact ⟨_, rfl, by simp [hlen, hsum], rfl, rfl⟩

/-- C7 witness: a 3-byte whole-sample decryption with an 8-byte IV keeps
the length and copies the metadata. -/
theorem decrypt_preserves_length_and_metadata_witness :
    ∃ out, decryptSample (fun _ _ => List.replicate 16 0) 0
        [⟨meta0, 3, [9, 9, 9]⟩] key16 ⟨[List.replicate 8 0], []⟩ = .ok out ∧
      out.data.length = (⟨meta0, 3, [9, 9, 9]⟩ : FullSample).data.length ∧
      out.sample = (⟨meta0, 3, [9, 9, 9]⟩ : FullSample).sample ∧
      out.decodeTime = (⟨meta0, 3, [9, 9, 9]⟩ : FullSample).decodeTime :=
  decrypt_preserves_length_and_metadata (fun _ _ => List.replicate 16 0) 0
    [⟨meta0, 3, [9, 9, 9]⟩] key16 ⟨[List.replicate 8 0], []⟩
    ⟨meta0, 3, [9, 9, 9]⟩ (List.replicate 8 0) (fun _ _ => by simp)
    rfl rfl rfl (Or.inl rfl) (Or.inl rfl)

/-- C1 (evaluation at the failing input): with a two-subsample sample
whose spans are both fully protected, the source's decryptSample calls
DecryptSampleCTR per span with the same IV, so the keystream restarts
at the second span (output is 32 zero bytes under the identity block
cipher with a zero key, IV, and data), while the spec's continuous
keystream (continuousWalk, equivalently one counter-mode pass over the
concatenated protected spans) produces a different result (its byte 31
is 1, from counter block one). -/
theorem cenc_keystream_restart_eval :
    decryptSample idCipher 0 [⟨meta0, 0, List.replicate 32 0⟩] key16
        ⟨[iv16], [[⟨0, 16⟩, ⟨0, 16⟩]]⟩ = .ok ⟨meta0, 0, List.replicate 32 0⟩ ∧
    continuousWalk idCipher key16 iv16 (List.replicate 32 0) 0 0
        [⟨0, 16⟩, ⟨0, 16⟩] ≠ List.replicate 32 0 :=
  ⟨rfl, by decide⟩

/-- C2 (evaluation at the failing input): a 2-byte sample with a
subsample list summing to 1 byte is not rejected; decryptSample
silently returns a 1-byte output, so no subsample-conservation check
exists in the code. -/
theorem cenc_subsample_sum_unchecked :
    decryptSample idCipher 0 [⟨meta0, 0, [7, 7]⟩] key16
        ⟨[iv16], [[⟨1, 0⟩]]⟩ = .ok ⟨meta0, 0, [7]⟩ ∧
    sumCP [⟨1, 0⟩] ≠ ([7, 7] : List Nat).length :=
  ⟨rfl, by decide⟩

/-- C3 counterexample: a 7-byte IV (neither 8 nor 16 bytes) is accepted
without any error when the sample's subsample list is present but
empty, because no DecryptSampleCTR call ever runs — refuting the claim
that every IV of another length is rejected. -/
theorem cenc_bad_iv_accepted_when_list_empty :
    decryptSample idCipher 0 [⟨meta0, 0, []⟩] key16
        ⟨[List.replicate 7 0], [[]]⟩ = .ok ⟨meta0, 0, []⟩ ∧
    (List.replicate 7 0 : List Nat).length ≠ 8 ∧
    (List.replicate 7 0 : List Nat).length ≠ 16 :=
  ⟨rfl, by decide, by decide⟩

theorem get?_set_same {α : Type} (l : List α) (i : Nat) (a b : α)
    (h : l.get? i = some a) : (l.set i b).get? i = some b := by
  induction l generalizing i with
  | nil => simp at h
  | cons x xs ih =>
      cases i with
      | zero => simp
      | succ n =>
          simp only [List.get?_cons_succ, List.set_cons_succ] at h ⊢
          exact ih n h

/-- C3 amended: an 8-byte IV decrypts identically to its 16-byte
zero-padded form; and an IV of any other length is rejected with
InvalidIVLength by the (spec-modelled) DecryptSampleCTR primitive
whenever at least one decryption call occurs — that is, when the
fragment has no subsample lists at all, or when the sample's subsample
list is nonempty (with its first spans inside the payload, so the walk
reaches the call); a present-but-empty subsample list performs no call
and the invalid IV is not detected. -/
theorem cenc_iv_normalization_amended :
    (∀ (E : List Nat → List Nat → List Nat) i samples key (senc : SencBox) iv0,
        senc.ivs.get? i = some iv0 → iv0.length = 8 →
        decryptSample E i samples key senc =
          decryptSample E i samples key
            ⟨senc.ivs.set i (iv0 ++ List.replicate 8 0), senc.subSamples⟩) ∧
    (∀ (E : List Nat → List Nat → List Nat) i samples key (senc : SencBox)
        (smp : FullSample) iv0,
        samples.get? i = some smp → senc.ivs.get? i = some iv0 →
        key.length = 16 → iv0.length ≠ 8 → iv0.length ≠ 16 →
        senc.subSamples = [] →
        decryptSample E i samples key senc = .error .invalidIVLength) ∧
    (∀ (E : List Nat → List Nat → List Nat) i samples key (senc : SencBox)
        (smp : FullSample) iv0 s1 srest,
        samples.get? i = some smp → senc.ivs.get? i = some iv0 →
        key.length = 16 → iv0.length ≠ 8 → iv0.length ≠ 16 →
        senc.subSamples.get? i = some (s1 :: srest) →
        s1.bytesOfClearData + s1.bytesOfProtectedData ≤ smp.data.length →
        decryptSample E i samples key senc = .error .invalidIVLength) := by
  refine ⟨?_, ?_, ?_⟩
  · intro E i samples key senc iv0 hiv h8
    unfold decryptSample
    cases hsm : samples.get? i with
    | none => rfl
    | some smp =>
        have hset : (senc.ivs.set i (iv0 ++ List.replicate 8 0)).get? i =
            some (iv0 ++ List.replicate 8 0) := get?_set_same _ _ _ _ hiv
        have hc : ¬((iv0 ++ List.replicate 8 0).length = 8) := by simp [h8]
        dsimp only
        rw [hiv, hset]
        dsimp only
        rw [if_pos h8, if_neg hc]
  · intro E i samples key senc smp iv0 hs hiv hkey h8 h16 hempty
    unfold decryptSample
    rw [hs, hiv]
    dsimp only
    rw [if_neg h8, hempty, if_neg (by simp)]
    unfold decryptSampleCTR
    rw [if_neg (by omega), if_pos (by omega)]
  · intro E i samples key senc smp iv0 s1 srest hs hiv hkey h8 h16 hget hbound
    unfold decryptSample
    rw [hs, hiv]
    dsimp only
    rw [if_neg h8]
    have hne0 : senc.subSamples.length ≠ 0 := by
      intro h0
      rw [List.length_eq_zero.mp h0] at hget
      simp at hget
    rw [if_pos hne0, hget]
    dsimp only
    simp only [subsampleWalk]
    rw [if_neg (by omega), if_neg (by omega)]
    unfold decryptSampleCTR
    rw [if_neg (by omega), if_pos (by omega)]

/-- C3 amended witness: padding equivalence at an 8-byte IV, and
InvalidIVLength at a 7-byte IV in both the no-subsample-list and the
nonempty-subsample-list shapes. -/
theorem cenc_iv_normalization_amended_witness :
    (decryptSample idCipher 0 [⟨meta0, 0, [5]⟩] key16
        ⟨[List.replicate 8 0], [[⟨1, 0⟩]]⟩ =
      decryptSample idCipher 0 [⟨meta0, 0, [5]⟩] key16
        ⟨[List.replicate 8 0 ++ List.replicate 8 0], [[⟨1, 0⟩]]⟩) ∧
    (decryptSample idCipher 0 [⟨meta0, 0, [5]⟩] key16
        ⟨[List.replicate 7 0], []⟩ = .error .invalidIVLength) ∧
    (decryptSample idCipher 0 [⟨meta0, 0, [5, 6]⟩] key16
        ⟨[List.replicate 7 0], [[⟨1, 1⟩]]⟩ = .error .invalidIVLength) :=
  ⟨cenc_iv_normalization_amended.1 idCipher 0 [⟨meta0, 0, [5]⟩] key16
      ⟨[List.replicate 8 0], [[⟨1, 0⟩]]⟩ (List.replicate 8 0) rfl rfl,
   cenc_iv_normalization_amended.2.1 idCipher 0 [⟨meta0, 0, [5]⟩] key16
      ⟨[List.replicate 7 0], []⟩ ⟨meta0, 0, [5]⟩ (List.replicate 7 0)
      rfl rfl rfl (by decide) (by decide) rfl,
   cenc_iv_normalization_amended.2.2 idCipher 0 [⟨meta0, 0, [5, 6]⟩] key16
      ⟨[List.replicate 7 0], [[⟨1, 1⟩]]⟩ ⟨meta0, 0, [5, 6]⟩ (List.replicate 7 0)
      ⟨1, 1⟩ [] rfl rfl rfl (by decide) (by decide) rfl (by decide)⟩

end Mp4ff
